import Mathlib

/-!
# Verification of the seezee random-access compressed container

Shallow embedding of `src/lib.rs` (and the codec interface of `src/zstd.rs`)
of the Swatinem/seezee repository, together with proofs about its claims.

Modelling conventions:
* Byte buffers (`&[u8]`, `Vec<u8>`) are `List Nat`; usize/u32 arithmetic is
  `Nat` with explicit `% 4294967296` wherever the Rust code truncates with
  `as u32`.
* The external zstd codec (`zstd.rs`) is abstracted as a pair of functions
  `C, D : List Nat → List Nat` (compress / decompress at a fixed level).
  `compress_to_buffer`/`decompress_to_buffer` write into spare capacity of a
  `Vec`; in the model this is plain list append of the codec's output.
  Codec calls are modelled as infallible; with a total codec function the
  only error source left in `read_into` is the "unexpected end of data"
  (`ErrorKind::UnexpectedEof`) path, which the model renders as `none`.
* Rust slice indexing `&l[a..b]` is modelled with `List.take`/`List.drop`
  (`sliceOf`); out-of-range indexing panics in Rust while the list model
  truncates — all theorems below stay inside the panic-free region.
* 32-bit words are serialized with `to_ne_bytes`; the model fixes
  little-endian order (the proofs only use that writing and reading agree,
  matching native order on one machine).
-/

/-- `u32::MAX` (= 2^32 - 1), the bound used by the `assert!`s in
`Compressor::frame_size` and `Compressor::compress`. -/
def u32MAX : Nat := 4294967295

/-- Rust's unsigned `div_ceil`: `d = a / b` plus one if a remainder is left.
(Rust panics on `b = 0`; the code always calls it with `frame_size >= 1`.) -/
def divCeil (a b : Nat) : Nat :=
  if a % b > 0 then a / b + 1 else a / b

/-- `&l[a..b]` of a Rust slice, as a list (truncating where Rust would panic). -/
def sliceOf (l : List Nat) (a b : Nat) : List Nat :=
  (l.take b).drop a

/-- The four bytes of `(v as u32).to_ne_bytes()`, little-endian. -/
def u32Bytes (v : Nat) : List Nat :=
  [v % 256, v / 256 % 256, v / 65536 % 256, v / 16777216 % 256]

/-- Read a `u32` from the first four bytes of a buffer (as
`u32::slice_from_prefix` / `Header::ref_from_prefix` reinterpret memory).
Returns 0 on a too-short buffer; all uses are guarded by length checks. -/
def readU32 (b : List Nat) : Nat :=
  match b with
  | b0 :: b1 :: b2 :: b3 :: _ => b0 % 256 + 256 * (b1 % 256) + 65536 * (b2 % 256) + 16777216 * (b3 % 256)
  | _ => 0

/-- `fn set_u32(buf, i, val)` of lib.rs: overwrite bytes `[4*i, 4*i+4)` of
`buf` with the word `val`. -/
def setU32 (buf : List Nat) (i v : Nat) : List Nat :=
  buf.take (4 * i) ++ u32Bytes v ++ buf.drop (4 * i + 4)

/-- Concatenation of a list of 32-bit words as bytes (the header/table
region of an artifact). -/
def wordsJoin (ws : List Nat) : List Nat :=
  (ws.map u32Bytes).flatten

/-! ## Compressor (lib.rs lines 10-84) -/

/-- The `Compressor` builder: `level` and `frame_size`. -/
structure Compressor where
  level : Int
  frame_size : Nat

/-- `Compressor::new()`: level 0, frame size `DEFAULT_FRAME_SIZE = 32 KiB`. -/
def Compressor.new : Compressor :=
  { level := 0, frame_size := 32 * 1024 }

/-- The condition checked by the two `assert!`s in `Compressor::frame_size`
(lib.rs lines 30-31): `frame_size >= 1 && frame_size < u32::MAX`.
`true` means the builder accepts the value; `false` means the assert panics
(a contract violation). -/
def Compressor.frameSizeOk (n : Nat) : Bool :=
  decide (1 ≤ n) && decide (n < u32MAX)

/-- The condition checked by the `assert!` in `Compressor::compress`
(lib.rs line 37): `input.len() < u32::MAX`. -/
def Compressor.compressLenOk (input : List Nat) : Bool :=
  decide (input.length < u32MAX)

/-- The source slice of frame `i`: `&input[i*frame_size .. min((i+1)*frame_size, input.len())]`
(lib.rs lines 57-59). -/
def frameSlice (input : List Nat) (fs i : Nat) : List Nat :=
  sliceOf input (i * fs) (min ((i + 1) * fs) input.length)

/-- One iteration of the compression loop (lib.rs lines 56-68), abstracted
over the codec `C`: append the compressed frame to the buffer, add its size
to `total_written`, and record `total_written as u32` at table slot `i + 3`. -/
def compressStep (C : List Nat → List Nat) (input : List Nat) (fs : Nat)
    (st : List Nat × Nat) (i : Nat) : List Nat × Nat :=
  let source := frameSlice input fs i
  let compressed := C source
  let buf := st.1 ++ compressed
  let total := st.2 + compressed.length
  (setU32 buf (i + 3) (total % 4294967296), total)

/-- `Compressor::compress` (lib.rs lines 36-71), abstracted over the codec
`C`: zero the `(num_frames + 3)`-word table, write `frame_size as u32` and
`input.len() as u32` into slots 0 and 1, then run the frame loop.
(The `assert!(input.len() < u32::MAX)` is `Compressor.compressLenOk`;
capacity reservations have no observable effect in the list model.) -/
def Compressor.compress (C : List Nat → List Nat) (fs : Nat) (input : List Nat) : List Nat :=
  let numFrames := divCeil input.length fs
  let tableSizeof := (numFrames + 3) * 4
  let buf : List Nat := List.replicate tableSizeof 0
  let buf := setU32 buf 0 (fs % 4294967296)
  let buf := setU32 buf 1 (input.length % 4294967296)
  ((List.range numFrames).foldl (compressStep C input fs) (buf, 0)).1

/-! ## Decompressor (lib.rs lines 86-209) -/

/-- The `#[repr(C)] struct Header { frame_size: u32, input_len: u32 }`. -/
structure Header where
  frame_size : Nat
  input_len : Nat

/-- The parsed artifact view: header, `num_frames + 1` offset words, and the
compressed blob tail. The private scratch `read_buf` is cleared before every
use in `read_into`, so it carries no observable state and is not a field of
the model. -/
structure Decompressor where
  header : Header
  frame_offsets : List Nat
  zstd_buf : List Nat

/-- `Decompressor::new` (lib.rs lines 104-115): parse a `Header` from the
first 8 bytes (`Header::ref_from_prefix`, `None` if too short), compute
`num_frames = input_len.div_ceil(frame_size) + 1`, and take that many `u32`
words (`u32::slice_from_prefix`, `None` if too short); the rest is the blob.
Alignment of the borrowed memory (also checked by watto) is a memory-layout
concern with no counterpart in the list model. Rust would panic (division by
zero) on a corrupt header with `frame_size = 0`; the model's `divCeil` then
yields `input_len.min 1`, a region no theorem below enters. -/
def Decompressor.new (bytes : List Nat) : Option Decompressor :=
  if bytes.length < 8 then none
  else
    let header : Header := { frame_size := readU32 bytes, input_len := readU32 (bytes.drop 4) }
    let rest := bytes.drop 8
    let num_frames := divCeil header.input_len header.frame_size + 1
    if rest.length < 4 * num_frames then none
    else some { header := header
                frame_offsets := (List.range num_frames).map fun i => readU32 (rest.drop (4 * i))
                zstd_buf := rest.drop (4 * num_frames) }

/-- `slice.get(a..=b)`: `Some` iff `a <= b + 1` and `b < len`. -/
def getRangeIncl (l : List Nat) (a b : Nat) : Option (List Nat) :=
  if a ≤ b + 1 ∧ b < l.length then some (sliceOf l a (b + 1)) else none

/-- `slice.windows(2)` as a list of adjacent pairs (the
`let &[start, end] = win else ...` arm of the loop is unreachable: every
window has exactly two elements). -/
def windows2 : List Nat → List (Nat × Nat)
  | a :: b :: rest => (a, b) :: windows2 (b :: rest)
  | _ => []

/-- The frame loop of `Decompressor::read_into` (lib.rs lines 158-181),
abstracted over the codec `D`. Arguments: the blob, `frame_size`, the
resolved `range.start` and `range.len()`, `n` = length of the sliced
`frame_offsets` (so `is_end ↔ i = n - 2`), then the remaining offset
windows, the loop index `i`, and the output buffer. Returns the final
result (`none` = the `UnexpectedEof` error) together with the buffer's
final contents. Edge frames go through the scratch `read_buf := D source`
and copy `sliceOf read_buf s e`; interior frames decompress straight into
the output buffer. -/
def readLoop (D : List Nat → List Nat) (zstd_buf : List Nat) (frame_size rstart rlen n : Nat) :
    List (Nat × Nat) → Nat → List Nat → Option (List Nat) × List Nat
  | [], _, buf => (some buf, buf)
  | (soff, eoff) :: rest, i, buf =>
    if soff ≤ eoff ∧ eoff ≤ zstd_buf.length then
      let source := sliceOf zstd_buf soff eoff
      if i = 0 ∨ i = n - 2 then
        let read_buf := D source
        let s := if i = 0 then rstart % frame_size else 0
        let e := min (s + (rlen - buf.length)) read_buf.length
        readLoop D zstd_buf frame_size rstart rlen n rest (i + 1) (buf ++ sliceOf read_buf s e)
      else
        readLoop D zstd_buf frame_size rstart rlen n rest (i + 1) (buf ++ D source)
    else (none, buf)

/-- `Decompressor::read_into` (lib.rs lines 138-184), abstracted over the
codec `D`. Takes the caller's buffer and the resolved `start..end` range;
returns the result (`none` = `UnexpectedEof`) and the buffer's contents
after the call (on the two early errors the buffer is untouched; the loop
starts from the cleared buffer `[]`). -/
def Decompressor.read_into (D : List Nat → List Nat) (d : Decompressor)
    (buf : List Nat) (rstart rend : Nat) : Option (List Nat) × List Nat :=
  if rstart > rend then (none, buf)
  else
    let frame_size := d.header.frame_size
    let startF := rstart / frame_size
    let endF := divCeil rend frame_size
    match getRangeIncl d.frame_offsets startF endF with
    | none => (none, buf)
    | some offs =>
      readLoop D d.zstd_buf frame_size rstart (rend - rstart) offs.length (windows2 offs) 0 []

/-- `std::ops::Bound<usize>` as used by `RangeBounds`. -/
inductive Bound where
  | included : Nat → Bound
  | excluded : Nat → Bound
  | unbounded : Bound

/-- `fn make_range(range, len)` (lib.rs lines 191-209): resolve the two
bounds; note the `Excluded(b) => *b` arm for the start bound. -/
def make_range (startB endB : Bound) (len : Nat) : Nat × Nat :=
  let start := match startB with
    | .included b => b
    | .excluded b => b
    | .unbounded => 0
  let stop := match endB with
    | .included b => b + 1
    | .excluded b => b
    | .unbounded => len
  (start, stop)

/-- `Decompressor::get_into` (lib.rs lines 130-136): resolve the bounds
against `header.input_len` and call `read_into`. -/
def Decompressor.get_into (D : List Nat → List Nat) (d : Decompressor)
    (buf : List Nat) (startB endB : Bound) : Option (List Nat) × List Nat :=
  let r := make_range startB endB d.header.input_len
  d.read_into D buf r.1 r.2

/-- `Decompressor::get` (lib.rs lines 121-128): `get_into` on a fresh buffer. -/
def Decompressor.get (D : List Nat → List Nat) (d : Decompressor)
    (startB endB : Bound) : Option (List Nat) :=
  (d.get_into D [] startB endB).1

/-! ## Derived descriptions of the artifact (used to state the theorems) -/

/-- `num_frames` as computed by `compress` (and, minus the `+ 1`, by
`Decompressor::new`). -/
def nfOf (fs : Nat) (input : List Nat) : Nat := divCeil input.length fs

/-- The compressed bytes of frame `i`. -/
def compressedFrame (C : List Nat → List Nat) (input : List Nat) (fs i : Nat) : List Nat :=
  C (frameSlice input fs i)

/-- Cumulative compressed size of frames `0..i` — the value `total_written`
holds after `i` iterations, i.e. the offset at which frame `i` starts in
the blob. -/
def offAt (C : List Nat → List Nat) (input : List Nat) (fs i : Nat) : Nat :=
  ((List.range i).map fun j => (compressedFrame C input fs j).length).sum

/-- The concatenated compressed frames (the artifact's blob tail). -/
def blobOf (C : List Nat → List Nat) (input : List Nat) (fs n : Nat) : List Nat :=
  ((List.range n).map (compressedFrame C input fs)).flatten

/-- The word list of an artifact's header + table region:
`frame_size`, `input_len`, then the `num_frames + 1` cumulative offsets
(anchor `offAt 0 = 0` included — slot 2 is written by neither `set_u32`
call and keeps its zero). -/
def tableWords (C : List Nat → List Nat) (fs : Nat) (input : List Nat) : List Nat :=
  [fs % 4294967296, input.length % 4294967296] ++
    (List.range (nfOf fs input + 1)).map fun i => offAt C input fs i % 4294967296

/-- Number of offset windows the `read_into` loop iterates over (one
decompressor call per window) for the resolved range `rstart..rend`;
mirrors lib.rs lines 143-158: `none` on the two error paths. -/
def framesTouched (d : Decompressor) (rstart rend : Nat) : Option Nat :=
  if rstart > rend then none
  else
    match getRangeIncl d.frame_offsets (rstart / d.header.frame_size)
        (divCeil rend d.header.frame_size) with
    | none => none
    | some offs => some (windows2 offs).length

/-! ## Arithmetic facts about `divCeil` -/

lemma divCeil_le_iff {b : Nat} (hb : 0 < b) (a k : Nat) : divCeil a b ≤ k ↔ a ≤ k * b := by
  obtain ⟨q, r, hr, rfl⟩ : ∃ q r, r < b ∧ a = b * q + r :=
    ⟨a / b, a % b, Nat.mod_lt _ hb, (Nat.div_add_mod a b).symm⟩
  have hdiv : (b * q + r) / b = q := by
    rw [Nat.mul_add_div hb, Nat.div_eq_of_lt hr, Nat.add_zero]
  have hmod : (b * q + r) % b = r := by
    rw [Nat.mul_add_mod, Nat.mod_eq_of_lt hr]
  unfold divCeil
  rw [hdiv, hmod]
  by_cases h0 : r > 0
  · simp only [h0, if_true]
    constructor
    · intro h
      calc b * q + r ≤ b * q + b := by omega
        _ = b * (q + 1) := by ring
        _ ≤ b * k := Nat.mul_le_mul_left b h
        _ = k * b := Nat.mul_comm b k
    · intro h
      by_contra hc
      have hkq : k ≤ q := by omega
      have h1 : k * b ≤ q * b := Nat.mul_le_mul_right b hkq
      have h2 : q * b = b * q := Nat.mul_comm q b
      omega
  · simp only [h0, if_false]
    have hr0 : r = 0 := by omega
    subst hr0
    constructor
    · intro h
      have h1 : q * b ≤ k * b := Nat.mul_le_mul_right b h
      have h2 : q * b = b * q := Nat.mul_comm q b
      omega
    · intro h
      have h2 : b * q ≤ b * k := by
        have h3 : q * b = b * q := Nat.mul_comm q b
        have h4 : k * b = b * k := Nat.mul_comm k b
        omega
      exact Nat.le_of_mul_le_mul_left h2 hb

lemma le_divCeil_mul {b : Nat} (hb : 0 < b) (a : Nat) : a ≤ divCeil a b * b :=
  (divCeil_le_iff hb a (divCeil a b)).1 le_rfl

lemma div_le_divCeil (a b : Nat) : a / b ≤ divCeil a b := by
  unfold divCeil; split <;> omega

lemma divCeil_mul {b : Nat} (hb : 0 < b) (m : Nat) : divCeil (m * b) b = m := by
  have h1 : divCeil (m * b) b ≤ m := (divCeil_le_iff hb _ m).2 le_rfl
  have h2 : m * b ≤ divCeil (m * b) b * b := le_divCeil_mul hb _
  have h3 : m ≤ divCeil (m * b) b := by
    by_contra hc
    have h4 : divCeil (m * b) b + 1 ≤ m := by omega
    have h5 := Nat.mul_le_mul_right b h4
    have h6 : (divCeil (m * b) b + 1) * b = divCeil (m * b) b * b + b := by ring
    omega
  omega

lemma divCeil_pred_mul_lt {b : Nat} (hb : 0 < b) {a : Nat} (ha : 0 < divCeil a b) :
    (divCeil a b - 1) * b < a := by
  by_contra hc
  have h1 : a ≤ (divCeil a b - 1) * b := by omega
  have h2 : divCeil a b ≤ divCeil a b - 1 := (divCeil_le_iff hb a _).2 h1
  omega

lemma divCeil_pos {b a : Nat} (hb : 0 < b) (ha : 0 < a) : 0 < divCeil a b := by
  by_contra hc
  have h1 : divCeil a b ≤ 0 := by omega
  have h2 := (divCeil_le_iff hb a 0).1 h1
  omega

/-! ## Slice lemmas -/

lemma sliceOf_length (l : List Nat) (a b : Nat) :
    (sliceOf l a b).length = min b l.length - a := by
  simp [sliceOf]

lemma sliceOf_eq_nil {l : List Nat} {a b : Nat} (h : b ≤ a) : sliceOf l a b = [] := by
  apply List.drop_eq_nil_of_le
  simp only [List.length_take]
  omega

lemma sliceOf_append_sliceOf (l : List Nat) {s a b : Nat} (hsa : s ≤ a) (hab : a ≤ b) :
    sliceOf l s a ++ sliceOf l a b = sliceOf l s b := by
  unfold sliceOf
  have h1 : (l.take b).take a = l.take a := by
    rw [List.take_take]; congr 1; omega
  by_cases hs : s ≤ min a l.length
  · rw [← h1]
    conv_rhs => rw [← List.take_append_drop a (l.take b)]
    rw [List.drop_append_eq_append_drop]
    have hlen : ((l.take b).take a).length = min a l.length := by
      simp only [List.length_take]; omega
    rw [hlen]
    have h0 : s - min a l.length = 0 := by omega
    rw [h0, List.drop_zero]
  · have e1 : (l.take a).drop s = [] :=
      List.drop_eq_nil_of_le (by simp only [List.length_take]; omega)
    have e2 : (l.take b).drop a = [] :=
      List.drop_eq_nil_of_le (by simp only [List.length_take]; omega)
    have e3 : (l.take b).drop s = [] :=
      List.drop_eq_nil_of_le (by simp only [List.length_take]; omega)
    rw [e1, e2, e3]; rfl

lemma sliceOf_sliceOf (l : List Nat) (a b s e : Nat) :
    sliceOf (sliceOf l a b) s e = sliceOf l (a + s) (min (a + e) b) := by
  unfold sliceOf
  rw [List.take_drop, List.drop_drop, List.take_take]

lemma sliceOf_append_left (u v : List Nat) (a b : Nat) :
    sliceOf (u ++ v) (u.length + a) (u.length + b) = sliceOf v a b := by
  unfold sliceOf
  rw [List.take_append, List.drop_append_eq_append_drop]
  have h3 : u.length + a - u.length = a := by omega
  rw [List.drop_eq_nil_of_le (by omega), h3, List.nil_append]

/-! ## Word-serialization lemmas -/

lemma u32Bytes_length (v : Nat) : (u32Bytes v).length = 4 := rfl

lemma wordsJoin_nil : wordsJoin [] = [] := rfl

lemma wordsJoin_cons (w : Nat) (ws : List Nat) :
    wordsJoin (w :: ws) = u32Bytes w ++ wordsJoin ws := rfl

lemma wordsJoin_append (a b : List Nat) :
    wordsJoin (a ++ b) = wordsJoin a ++ wordsJoin b := by
  unfold wordsJoin
  rw [List.map_append, List.flatten_append]

lemma wordsJoin_length (ws : List Nat) : (wordsJoin ws).length = 4 * ws.length := by
  induction ws with
  | nil => rfl
  | cons w ws ih =>
    rw [wordsJoin_cons, List.length_append, u32Bytes_length, ih, List.length_cons]
    ring

lemma replicate_zero_words (n : Nat) :
    List.replicate (4 * n) (0 : Nat) = wordsJoin (List.replicate n 0) := by
  induction n with
  | zero => rfl
  | succ n ih =>
    have h4 : 4 * (n + 1) = 4 * n + 4 := by ring
    rw [h4]
    have hrep : List.replicate (4 * n + 4) (0 : Nat) = 0 :: 0 :: 0 :: 0 :: List.replicate (4 * n) 0 := rfl
    rw [hrep, ih]
    show _ = wordsJoin (0 :: List.replicate n 0)
    rw [wordsJoin_cons]
    rfl

lemma take_four_cons (a b c d : Nat) (r : List Nat) (n : Nat) :
    (a :: b :: c :: d :: r).take (n + 4) = a :: b :: c :: d :: r.take n := by
  show (a :: b :: c :: d :: r).take (n + 1 + 1 + 1 + 1) = _
  simp [List.take_succ_cons]

lemma drop_four_cons (a b c d : Nat) (r : List Nat) (n : Nat) :
    (a :: b :: c :: d :: r).drop (n + 4) = r.drop n := by
  show (a :: b :: c :: d :: r).drop (n + 1 + 1 + 1 + 1) = _
  simp [List.drop_succ_cons]

lemma setU32_wordsJoin (ws : List Nat) (tail : List Nat) (i v : Nat) (h : i < ws.length) :
    setU32 (wordsJoin ws ++ tail) i v = wordsJoin (ws.set i v) ++ tail := by
  induction ws generalizing i with
  | nil => simp at h
  | cons w ws ih =>
    obtain ⟨b0, b1, b2, b3, hbytes⟩ : ∃ b0 b1 b2 b3, u32Bytes w = [b0, b1, b2, b3] :=
      ⟨_, _, _, _, rfl⟩
    have hL : wordsJoin (w :: ws) ++ tail = b0 :: b1 :: b2 :: b3 :: (wordsJoin ws ++ tail) := by
      rw [wordsJoin_cons, hbytes]; rfl
    cases i with
    | zero =>
      rw [hL]
      show ((b0 :: b1 :: b2 :: b3 :: (wordsJoin ws ++ tail)).take 0) ++ u32Bytes v ++
          ((b0 :: b1 :: b2 :: b3 :: (wordsJoin ws ++ tail)).drop 4) = _
      rw [List.take_zero, List.nil_append]
      show u32Bytes v ++ (wordsJoin ws ++ tail) = wordsJoin (v :: ws) ++ tail
      rw [wordsJoin_cons, List.append_assoc]
    | succ i =>
      have hi : i < ws.length := by simp at h; omega
      have hR : wordsJoin ((w :: ws).set (i + 1) v) ++ tail
          = b0 :: b1 :: b2 :: b3 :: (wordsJoin (ws.set i v) ++ tail) := by
        rw [List.set_cons_succ, wordsJoin_cons, hbytes]; rfl
      rw [hL, hR, ← ih i hi]
      unfold setU32
      have h1 : 4 * (i + 1) = 4 * i + 4 := by ring
      have h2 : 4 * (i + 1) + 4 = (4 * i + 4) + 4 := by ring
      rw [h1, take_four_cons]
      rw [show 4 * i + 4 + 4 = (4 * i + 4) + 4 from rfl, drop_four_cons]
      simp

lemma readU32_u32Bytes (v : Nat) (r : List Nat) : readU32 (u32Bytes v ++ r) = v % 4294967296 := by
  show v % 256 % 256 + 256 * (v / 256 % 256 % 256) + 65536 * (v / 65536 % 256 % 256) +
      16777216 * (v / 16777216 % 256 % 256) = v % 4294967296
  omega

lemma readU32_wordsJoin (ws : List Nat) (tail : List Nat) (i : Nat) (h : i < ws.length) :
    readU32 ((wordsJoin ws ++ tail).drop (4 * i)) = ws.getD i 0 % 4294967296 := by
  induction ws generalizing i with
  | nil => simp at h
  | cons w ws ih =>
    obtain ⟨b0, b1, b2, b3, hbytes⟩ : ∃ b0 b1 b2 b3, u32Bytes w = [b0, b1, b2, b3] :=
      ⟨_, _, _, _, rfl⟩
    have hL : wordsJoin (w :: ws) ++ tail = b0 :: b1 :: b2 :: b3 :: (wordsJoin ws ++ tail) := by
      rw [wordsJoin_cons, hbytes]; rfl
    cases i with
    | zero =>
      rw [hL]
      show readU32 (b0 :: b1 :: b2 :: b3 :: (wordsJoin ws ++ tail)) = _
      have : readU32 (u32Bytes w ++ (wordsJoin ws ++ tail)) = w % 4294967296 :=
        readU32_u32Bytes w _
      rw [hbytes] at this
      exact this
    | succ i =>
      have hi : i < ws.length := by simp at h; omega
      rw [hL]
      have h1 : 4 * (i + 1) = 4 * i + 4 := by ring
      rw [h1, drop_four_cons, ih i hi]
      rfl

lemma drop_wordsJoin (ws : List Nat) (tail : List Nat) (i : Nat) (h : i ≤ ws.length) :
    (wordsJoin ws ++ tail).drop (4 * i) = wordsJoin (ws.drop i) ++ tail := by
  induction ws generalizing i with
  | nil =>
    have : i = 0 := by simpa using h
    subst this
    rfl
  | cons w ws ih =>
    cases i with
    | zero => rfl
    | succ i =>
      have hi : i ≤ ws.length := by simp at h; omega
      obtain ⟨b0, b1, b2, b3, hbytes⟩ : ∃ b0 b1 b2 b3, u32Bytes w = [b0, b1, b2, b3] :=
        ⟨_, _, _, _, rfl⟩
      have hL : wordsJoin (w :: ws) ++ tail = b0 :: b1 :: b2 :: b3 :: (wordsJoin ws ++ tail) := by
        rw [wordsJoin_cons, hbytes]; rfl
      rw [hL]
      have h1 : 4 * (i + 1) = 4 * i + 4 := by ring
      rw [h1, drop_four_cons, ih i hi]
      rfl

/-! ## Facts about the artifact structure produced by `compress` -/

lemma offAt_zero (C : List Nat → List Nat) (input : List Nat) (fs : Nat) :
    offAt C input fs 0 = 0 := rfl

lemma offAt_succ (C : List Nat → List Nat) (input : List Nat) (fs i : Nat) :
    offAt C input fs (i + 1) = offAt C input fs i + (compressedFrame C input fs i).length := by
  unfold offAt
  rw [List.range_succ, List.map_append, List.sum_append]
  rfl

lemma offAt_mono (C : List Nat → List Nat) (input : List Nat) (fs : Nat) {i j : Nat}
    (h : i ≤ j) : offAt C input fs i ≤ offAt C input fs j := by
  induction j with
  | zero =>
    have h0 : i = 0 := by omega
    subst h0
    exact le_rfl
  | succ j ih =>
    rcases Nat.lt_or_ge i (j + 1) with h1 | h1
    · have h2 := ih (by omega)
      rw [offAt_succ]
      omega
    · have h2 : i = j + 1 := by omega
      subst h2
      exact le_rfl

lemma blobOf_zero (C : List Nat → List Nat) (input : List Nat) (fs : Nat) :
    blobOf C input fs 0 = [] := rfl

lemma blobOf_succ (C : List Nat → List Nat) (input : List Nat) (fs n : Nat) :
    blobOf C input fs (n + 1) = blobOf C input fs n ++ compressedFrame C input fs n := by
  unfold blobOf
  rw [List.range_succ, List.map_append, List.flatten_append]
  simp

lemma blobOf_length (C : List Nat → List Nat) (input : List Nat) (fs n : Nat) :
    (blobOf C input fs n).length = offAt C input fs n := by
  induction n with
  | zero => rfl
  | succ n ih =>
    rw [blobOf_succ, List.length_append, ih, offAt_succ]

/-- Frame `i` sits at `[offAt i, offAt (i+1))` in the blob. -/
lemma blobOf_sliceOf (C : List Nat → List Nat) (input : List Nat) (fs : Nat) {i n : Nat}
    (h : i < n) :
    sliceOf (blobOf C input fs n) (offAt C input fs i) (offAt C input fs (i + 1)) =
      compressedFrame C input fs i := by
  induction n with
  | zero => omega
  | succ n ih =>
    rcases Nat.lt_or_ge i n with h1 | h1
    · rw [blobOf_succ]
      unfold sliceOf
      rw [List.take_append_eq_append_take]
      have hlen : (blobOf C input fs n).length = offAt C input fs n := blobOf_length ..
      have hle : offAt C input fs (i + 1) ≤ offAt C input fs n := offAt_mono C input fs h1
      have h0 : offAt C input fs (i + 1) - (blobOf C input fs n).length = 0 := by omega
      rw [h0, List.take_zero, List.append_nil]
      exact ih h1
    · have hi : i = n := by omega
      subst hi
      rw [blobOf_succ]
      unfold sliceOf
      have hlen : (blobOf C input fs i).length = offAt C input fs i := blobOf_length ..
      rw [offAt_succ, List.take_append_eq_append_take]
      have h1 : offAt C input fs i + (compressedFrame C input fs i).length -
          (blobOf C input fs i).length = (compressedFrame C input fs i).length := by omega
      rw [h1]
      have h2 : (blobOf C input fs i).take
          (offAt C input fs i + (compressedFrame C input fs i).length) = blobOf C input fs i :=
        List.take_of_length_le (by omega)
      rw [h2, List.take_of_length_le le_rfl, List.drop_append_eq_append_drop]
      rw [List.drop_eq_nil_of_le (by omega)]
      have h3 : offAt C input fs i - (blobOf C input fs i).length = 0 := by omega
      rw [h3, List.drop_zero, List.nil_append]

lemma setU32_wordsJoin_nil (ws : List Nat) (i v : Nat) (h : i < ws.length) :
    setU32 (wordsJoin ws) i v = wordsJoin (ws.set i v) := by
  have h1 := setU32_wordsJoin ws [] i v h
  simpa using h1

/-- The state of the compression loop after `k` frames: the table holds
`frame_size`, `input_len`, the offsets of frames `0..k` and zero padding;
the tail is the blob of the first `k` frames; `total_written = offAt k`. -/
lemma compress_loop_inv (C : List Nat → List Nat) (fs : Nat) (input : List Nat) (k : Nat)
    (hk : k ≤ nfOf fs input) :
    (List.range k).foldl (compressStep C input fs)
      (setU32 (setU32 (List.replicate ((nfOf fs input + 3) * 4) 0) 0 (fs % 4294967296)) 1
        (input.length % 4294967296), 0) =
    (wordsJoin ([fs % 4294967296, input.length % 4294967296] ++
        ((List.range (k + 1)).map fun i => offAt C input fs i % 4294967296) ++
        List.replicate (nfOf fs input - k) 0) ++ blobOf C input fs k,
      offAt C input fs k) := by
  induction k with
  | zero =>
    rw [List.range_zero, List.foldl_nil]
    have hrep : List.replicate ((nfOf fs input + 3) * 4) (0 : Nat) =
        wordsJoin (List.replicate (nfOf fs input + 3) 0) := by
      rw [← replicate_zero_words]
      congr 1
      ring
    rw [hrep]
    rw [setU32_wordsJoin_nil _ _ _ (by simp)]
    rw [setU32_wordsJoin_nil _ _ _ (by simp)]
    have h5 : (List.range 1).map (fun i => offAt C input fs i % 4294967296) = [0] := by
      have hr1 : List.range 1 = [0] := rfl
      rw [hr1, List.map_cons, List.map_nil, offAt_zero]
    have hws : ((List.replicate (nfOf fs input + 3) (0 : Nat)).set 0 (fs % 4294967296)).set 1
        (input.length % 4294967296) =
        [fs % 4294967296, input.length % 4294967296] ++
          ((List.range 1).map fun i => offAt C input fs i % 4294967296) ++
          List.replicate (nfOf fs input - 0) 0 := by
      have h3 : List.replicate (nfOf fs input + 3) (0 : Nat) =
          0 :: 0 :: 0 :: List.replicate (nfOf fs input) 0 := rfl
      rw [h3, List.set_cons_zero, List.set_cons_succ, List.set_cons_zero, h5]
      rfl
    rw [hws, blobOf_zero, List.append_nil]
    rfl
  | succ k ih =>
    have hk' : k ≤ nfOf fs input := by omega
    rw [List.range_succ, List.foldl_append, ih hk', List.foldl_cons, List.foldl_nil]
    unfold compressStep
    simp only []
    have hassoc : (wordsJoin ([fs % 4294967296, input.length % 4294967296] ++
        ((List.range (k + 1)).map fun i => offAt C input fs i % 4294967296) ++
        List.replicate (nfOf fs input - k) 0) ++ blobOf C input fs k) ++
          compressedFrame C input fs k =
        wordsJoin ([fs % 4294967296, input.length % 4294967296] ++
        ((List.range (k + 1)).map fun i => offAt C input fs i % 4294967296) ++
        List.replicate (nfOf fs input - k) 0) ++
          (blobOf C input fs k ++ compressedFrame C input fs k) := by
      rw [List.append_assoc]
    have hlen : ([fs % 4294967296, input.length % 4294967296] ++
        ((List.range (k + 1)).map fun i => offAt C input fs i % 4294967296) ++
        List.replicate (nfOf fs input - k) 0).length = nfOf fs input + 3 := by
      simp only [List.length_append, List.length_cons, List.length_map, List.length_range,
        List.length_replicate]
      simp
      omega
    show (setU32 (_ ++ C (frameSlice input fs k)) (k + 3)
        ((offAt C input fs k + (C (frameSlice input fs k)).length) % 4294967296),
      offAt C input fs k + (C (frameSlice input fs k)).length) = _
    have hCf : C (frameSlice input fs k) = compressedFrame C input fs k := rfl
    rw [hCf, ← offAt_succ, hassoc]
    rw [setU32_wordsJoin _ _ _ _ (by rw [hlen]; omega)]
    rw [← blobOf_succ]
    have hset : ([fs % 4294967296, input.length % 4294967296] ++
        ((List.range (k + 1)).map fun i => offAt C input fs i % 4294967296) ++
        List.replicate (nfOf fs input - k) 0).set (k + 3)
          (offAt C input fs (k + 1) % 4294967296) =
        [fs % 4294967296, input.length % 4294967296] ++
        ((List.range (k + 1 + 1)).map fun i => offAt C input fs i % 4294967296) ++
        List.replicate (nfOf fs input - (k + 1)) 0 := by
      rw [List.append_assoc, List.set_append_right _ _ (by simp)]
      have h2 : k + 3 - ([fs % 4294967296, input.length % 4294967296] : List Nat).length
          = k + 1 := by simp
      rw [h2]
      rw [List.set_append_right _ _ (by simp)]
      have h3 : k + 1 - ((List.range (k + 1)).map
          fun i => offAt C input fs i % 4294967296).length = 0 := by simp
      rw [h3]
      have h4 : nfOf fs input - k = (nfOf fs input - (k + 1)) + 1 := by omega
      rw [h4, List.replicate_succ, List.set_cons_zero]
      rw [List.range_succ (n := k + 1), List.map_append]
      simp [List.append_assoc]
    rw [hset]

/-- Structure of the artifact: header words, a stored zero anchor plus the
`num_frames` cumulative offsets, then the concatenated compressed frames. -/
lemma compress_eq (C : List Nat → List Nat) (fs : Nat) (input : List Nat) :
    Compressor.compress C fs input =
      wordsJoin (tableWords C fs input) ++ blobOf C input fs (nfOf fs input) := by
  have h := compress_loop_inv C fs input (nfOf fs input) le_rfl
  show ((List.range (nfOf fs input)).foldl (compressStep C input fs)
      (setU32 (setU32 (List.replicate ((nfOf fs input + 3) * 4) 0) 0 (fs % 4294967296)) 1
        (input.length % 4294967296), 0)).1 = _
  rw [h]
  show wordsJoin ([fs % 4294967296, input.length % 4294967296] ++
      ((List.range (nfOf fs input + 1)).map fun i => offAt C input fs i % 4294967296) ++
      List.replicate (nfOf fs input - nfOf fs input) 0) ++ blobOf C input fs (nfOf fs input) = _
  have h0 : nfOf fs input - nfOf fs input = 0 := by omega
  rw [h0, List.replicate_zero, List.append_nil]
  rfl

lemma tableWords_length (C : List Nat → List Nat) (fs : Nat) (input : List Nat) :
    (tableWords C fs input).length = nfOf fs input + 3 := by
  unfold tableWords
  simp

lemma compress_length (C : List Nat → List Nat) (fs : Nat) (input : List Nat) :
    (Compressor.compress C fs input).length =
      4 * (nfOf fs input + 3) + offAt C input fs (nfOf fs input) := by
  rw [compress_eq, List.length_append, wordsJoin_length, tableWords_length, blobOf_length]

lemma getD_map_range (f : Nat → Nat) (n i : Nat) (h : i < n) :
    ((List.range n).map f).getD i 0 = f i := by
  rw [List.getD_eq_getElem?_getD, List.getElem?_map, List.getElem?_range h]
  rfl

lemma readU32_wordsJoin_cons (w : Nat) (ws blob : List Nat) :
    readU32 (wordsJoin (w :: ws) ++ blob) = w % 4294967296 := by
  rw [wordsJoin_cons, List.append_assoc, readU32_u32Bytes]

lemma drop4_wordsJoin_cons (w : Nat) (ws blob : List Nat) :
    (wordsJoin (w :: ws) ++ blob).drop 4 = wordsJoin ws ++ blob := by
  rw [wordsJoin_cons, List.append_assoc]
  rfl

lemma map_range_getD_mod (ws : List Nat) (m : Nat) :
    (List.range ws.length).map (fun i => ws.getD i 0 % m) = ws.map (· % m) := by
  induction ws with
  | nil => rfl
  | cons w ws ih =>
    show (List.range (ws.length + 1)).map _ = _
    rw [List.range_succ_eq_map, List.map_cons, List.map_map, List.map_cons]
    refine congrArg₂ _ rfl ?_
    show (List.range ws.length).map (fun i => ws.getD i 0 % m) = _
    rw [ih]

/-- Parsing a buffer made of a well-formed word table followed by a blob. -/
lemma new_wordsJoin (w0 w1 : Nat) (ws blob : List Nat)
    (hw0 : w0 < 4294967296) (hw1 : w1 < 4294967296)
    (hn : ws.length = divCeil w1 w0 + 1) :
    Decompressor.new (wordsJoin (w0 :: w1 :: ws) ++ blob) =
      some { header := { frame_size := w0, input_len := w1 }
             frame_offsets := ws.map (· % 4294967296)
             zstd_buf := blob } := by
  have hlen : (wordsJoin (w0 :: w1 :: ws) ++ blob).length = 4 * (ws.length + 2) + blob.length := by
    rw [List.length_append, wordsJoin_length]
    simp only [List.length_cons]
  have h1 : readU32 (wordsJoin (w0 :: w1 :: ws) ++ blob) = w0 := by
    rw [readU32_wordsJoin_cons]
    exact Nat.mod_eq_of_lt hw0
  have hdrop4 : (wordsJoin (w0 :: w1 :: ws) ++ blob).drop 4 = wordsJoin (w1 :: ws) ++ blob :=
    drop4_wordsJoin_cons ..
  have h2 : readU32 (wordsJoin (w1 :: ws) ++ blob) = w1 := by
    rw [readU32_wordsJoin_cons]
    exact Nat.mod_eq_of_lt hw1
  have hdrop8 : (wordsJoin (w0 :: w1 :: ws) ++ blob).drop 8 = wordsJoin ws ++ blob := by
    rw [show (8 : Nat) = 4 + 4 from rfl, ← List.drop_drop, hdrop4, drop4_wordsJoin_cons]
  have hoffs : (List.range ws.length).map (fun i => readU32 ((wordsJoin ws ++ blob).drop (4 * i)))
      = ws.map (· % 4294967296) := by
    rw [← map_range_getD_mod]
    exact List.map_congr_left fun i hi =>
      readU32_wordsJoin ws blob i (by simpa using hi)
  have hrest : (wordsJoin ws ++ blob).drop (4 * ws.length) = blob := by
    rw [drop_wordsJoin ws blob ws.length le_rfl, List.drop_length]
    rfl
  simp only [Decompressor.new]
  rw [hdrop8, hdrop4, h1, h2, ← hn]
  rw [if_neg (by omega)]
  rw [if_neg (by rw [List.length_append, wordsJoin_length]; omega)]
  rw [hoffs]
  rw [hrest]

/-- Opening an artifact produced by `compress` always succeeds and recovers
the header, the offset table (truncated to `u32`) and the blob. -/
lemma new_compress (C : List Nat → List Nat) (fs : Nat) (input : List Nat)
    (hfs32 : fs < 4294967296) (hlen32 : input.length < 4294967296) :
    Decompressor.new (Compressor.compress C fs input) =
      some { header := { frame_size := fs, input_len := input.length }
             frame_offsets :=
               (List.range (nfOf fs input + 1)).map fun i => offAt C input fs i % 4294967296
             zstd_buf := blobOf C input fs (nfOf fs input) } := by
  rw [compress_eq]
  have hfsm : fs % 4294967296 = fs := Nat.mod_eq_of_lt hfs32
  have hlenm : input.length % 4294967296 = input.length := Nat.mod_eq_of_lt hlen32
  have htw : tableWords C fs input = fs :: input.length ::
      ((List.range (nfOf fs input + 1)).map fun i => offAt C input fs i % 4294967296) := by
    unfold tableWords
    rw [hfsm, hlenm]
    rfl
  rw [htw]
  rw [new_wordsJoin _ _ _ _ hfs32 hlen32 (by simp [nfOf])]
  have hmm : ((List.range (nfOf fs input + 1)).map
        (fun i => offAt C input fs i % 4294967296)).map (· % 4294967296) =
      (List.range (nfOf fs input + 1)).map fun i => offAt C input fs i % 4294967296 := by
    rw [List.map_map]
    exact List.map_congr_left fun i _ => by
      show offAt C input fs i % 4294967296 % 4294967296 = offAt C input fs i % 4294967296
      omega
  rw [hmm]

/-- Offsets of a compress-produced artifact, with the `u32` truncation gone
whenever the total compressed size fits in a `u32`. -/
lemma offsets_no_trunc (C : List Nat → List Nat) (input : List Nat) (fs : Nat)
    (hsum : offAt C input fs (nfOf fs input) < 4294967296) :
    ((List.range (nfOf fs input + 1)).map fun i => offAt C input fs i % 4294967296) =
      (List.range (nfOf fs input + 1)).map (offAt C input fs) := by
  refine List.map_congr_left fun i hi => ?_
  have hi' : i < nfOf fs input + 1 := by simpa using hi
  have hle : offAt C input fs i ≤ offAt C input fs (nfOf fs input) :=
    offAt_mono C input fs (by omega)
  exact Nat.mod_eq_of_lt (by omega)

lemma windows2_length (l : List Nat) : (windows2 l).length = l.length - 1 := by
  induction l with
  | nil => rfl
  | cons a l ih =>
    cases l with
    | nil => rfl
    | cons b r =>
      show ((a, b) :: windows2 (b :: r)).length = (a :: b :: r).length - 1
      rw [List.length_cons, ih]
      simp

lemma windows2_cons_cons (x y : Nat) (r : List Nat) :
    windows2 (x :: y :: r) = (x, y) :: windows2 (y :: r) := rfl

lemma map_range_succ_shift {α : Type} (g : Nat → α) (m : Nat) :
    (List.range (m + 1)).map g = g 0 :: (List.range m).map fun t => g (t + 1) := by
  rw [List.range_succ_eq_map, List.map_cons, List.map_map]
  refine congrArg₂ _ rfl (List.map_congr_left fun t _ => ?_)
  rfl

lemma windows2_map_range (f : Nat → Nat) (m a : Nat) :
    windows2 ((List.range (m + 1)).map fun t => f (a + t)) =
      (List.range m).map fun t => (f (a + t), f (a + t + 1)) := by
  induction m generalizing a with
  | zero => rfl
  | succ m ih =>
    have h1 : (List.range (m + 1 + 1)).map (fun t => f (a + t)) =
        f a :: (List.range (m + 1)).map fun t => f (a + 1 + t) := by
      rw [map_range_succ_shift]
      refine congrArg₂ _ (by rw [Nat.add_zero]) (List.map_congr_left fun t _ => ?_)
      congr 1
      omega
    have h2 : (List.range (m + 1)).map (fun t => f (a + 1 + t)) =
        f (a + 1) :: (List.range m).map fun t => f (a + 1 + 1 + t) := by
      rw [map_range_succ_shift]
      refine congrArg₂ _ (by rw [Nat.add_zero]) (List.map_congr_left fun t _ => ?_)
      congr 1
      omega
    rw [h1, h2, windows2_cons_cons, ← h2, ih (a + 1)]
    have h3 : (List.range (m + 1)).map (fun t => (f (a + t), f (a + t + 1))) =
        (f a, f (a + 1)) :: (List.range m).map fun t => (f (a + 1 + t), f (a + 1 + t + 1)) := by
      rw [map_range_succ_shift]
      refine congrArg₂ _ (by rw [Nat.add_zero]) (List.map_congr_left fun t _ => ?_)
      simp only [Prod.mk.injEq]
      constructor <;> (congr 1; omega)
    rw [h3]

lemma sliceOf_map_range (f : Nat → Nat) (N a b : Nat) (hab : a ≤ b) (hb : b ≤ N) :
    sliceOf ((List.range N).map f) a b = (List.range (b - a)).map fun t => f (a + t) := by
  unfold sliceOf
  rw [← List.map_take, List.take_range]
  have hmin : min b N = b := by omega
  rw [hmin, ← List.map_drop]
  have h2 : List.range (a + (b - a)) = List.range a ++ (List.range (b - a)).map fun x => a + x :=
    List.range_add a (b - a)
  have h3 : a + (b - a) = b := by omega
  rw [h3] at h2
  rw [h2]
  have hdrop : (List.range a ++ (List.range (b - a)).map fun x => a + x).drop a =
      (List.range (b - a)).map fun x => a + x := by
    have h4 := List.drop_left (List.range a) ((List.range (b - a)).map fun x => a + x)
    rwa [List.length_range] at h4
  rw [hdrop, List.map_map]
  rfl

/-- One unfolding step of the read loop. -/
lemma readLoop_cons (D : List Nat → List Nat) (zb : List Nat) (fs rs rl n : Nat)
    (soff eoff : Nat) (rest : List (Nat × Nat)) (i : Nat) (buf : List Nat) :
    readLoop D zb fs rs rl n ((soff, eoff) :: rest) i buf =
      if soff ≤ eoff ∧ eoff ≤ zb.length then
        if i = 0 ∨ i = n - 2 then
          readLoop D zb fs rs rl n rest (i + 1)
            (buf ++ sliceOf (D (sliceOf zb soff eoff))
              (if i = 0 then rs % fs else 0)
              (min ((if i = 0 then rs % fs else 0) + (rl - buf.length))
                (D (sliceOf zb soff eoff)).length))
        else readLoop D zb fs rs rl n rest (i + 1) (buf ++ D (sliceOf zb soff eoff))
      else (none, buf) := rfl

/-- Correctness of the `read_into` frame loop over a compress-produced
artifact: starting at frame `j` with the bytes `input[s .. min e (j*fs)]`
already produced, the loop ends with exactly `input[s .. min e len]`. -/
lemma readLoop_main (C D : List Nat → List Nat) (input : List Nat) (fs : Nat)
    (hfs : 0 < fs) (hCD : ∀ b, D (C b) = b)
    (s e : Nat) (hse : s ≤ e) (hsl : s ≤ input.length)
    (he : e ≤ nfOf fs input * fs) :
    ∀ m j buf, j + m = divCeil e fs → s / fs ≤ j →
      buf = sliceOf input s (min e (min (j * fs) input.length)) →
      readLoop D (blobOf C input fs (nfOf fs input)) fs s (e - s)
        (divCeil e fs + 1 - s / fs)
        ((List.range m).map fun t => (offAt C input fs (j + t), offAt C input fs (j + t + 1)))
        (j - s / fs) buf =
      (some (sliceOf input s (min e input.length)), sliceOf input s (min e input.length)) := by
  intro m
  induction m with
  | zero =>
    intro j buf hjm hj hbuf
    have hj' : j = divCeil e fs := by omega
    subst hj'
    rw [List.range_zero, List.map_nil]
    have h1 : e ≤ divCeil e fs * fs := le_divCeil_mul hfs e
    have hmin : min e (min (divCeil e fs * fs) input.length) = min e input.length := by omega
    rw [hbuf, hmin]
    rfl
  | succ m ih =>
    intro j buf hjm hj hbuf
    have hnfdef : nfOf fs input = divCeil input.length fs := rfl
    have hnf : divCeil e fs ≤ nfOf fs input := (divCeil_le_iff hfs e _).2 he
    have hjlt : j < divCeil e fs := by omega
    have hjnf : j < nfOf fs input := by omega
    have hq := Nat.div_add_mod s fs
    have hr : s % fs < fs := Nat.mod_lt _ hfs
    have hqfs : s / fs * fs = fs * (s / fs) := Nat.mul_comm _ _
    have hqe : s / fs ≤ divCeil e fs :=
      le_trans (Nat.div_le_div_right hse) (div_le_divCeil e fs)
    have hjfs1 : (j + 1) * fs = j * fs + fs := by ring
    have hqj : s / fs * fs ≤ j * fs := Nat.mul_le_mul_right fs hj
    have hj1fsle : (j + 1) * fs ≤ divCeil e fs * fs := Nat.mul_le_mul_right fs hjlt
    have hee : e ≤ divCeil e fs * fs := le_divCeil_mul hfs e
    have hple : (divCeil e fs - 1) * fs < e := divCeil_pred_mul_lt hfs (by omega)
    have hjfsle : j * fs ≤ (divCeil e fs - 1) * fs := Nat.mul_le_mul_right fs (by omega)
    have hlenle : input.length ≤ nfOf fs input * fs := le_divCeil_mul hfs input.length
    have hnfp : (nfOf fs input - 1) * fs < input.length := divCeil_pred_mul_lt hfs (by omega)
    have hjfsnf : j * fs ≤ (nfOf fs input - 1) * fs := Nat.mul_le_mul_right fs (by omega)
    have hexp : ((List.range (m + 1)).map fun t =>
          (offAt C input fs (j + t), offAt C input fs (j + t + 1))) =
        (offAt C input fs j, offAt C input fs (j + 1)) ::
          ((List.range m).map fun t =>
            (offAt C input fs (j + 1 + t), offAt C input fs (j + 1 + t + 1))) := by
      rw [map_range_succ_shift]
      refine congrArg₂ _ (by rw [Nat.add_zero]) (List.map_congr_left fun t _ => ?_)
      simp only [Prod.mk.injEq]
      constructor
      · have harg : j + (t + 1) = j + 1 + t := by omega
        rw [harg]
      · have harg : j + (t + 1) + 1 = j + 1 + t + 1 := by omega
        rw [harg]
    rw [hexp, readLoop_cons]
    have hblob : (blobOf C input fs (nfOf fs input)).length =
        offAt C input fs (nfOf fs input) := blobOf_length ..
    have hguard : offAt C input fs j ≤ offAt C input fs (j + 1) ∧
        offAt C input fs (j + 1) ≤ (blobOf C input fs (nfOf fs input)).length := by
      refine ⟨offAt_mono C input fs (by omega), ?_⟩
      rw [hblob]
      exact offAt_mono C input fs (by omega)
    rw [if_pos hguard]
    have hsource : D (sliceOf (blobOf C input fs (nfOf fs input)) (offAt C input fs j)
        (offAt C input fs (j + 1))) = frameSlice input fs j := by
      rw [blobOf_sliceOf C input fs hjnf]
      exact hCD _
    rw [hsource]
    have hidx : j - s / fs + 1 = j + 1 - s / fs := by omega
    have hframe : frameSlice input fs j =
        sliceOf input (j * fs) (min ((j + 1) * fs) input.length) := rfl
    by_cases hfirst : j - s / fs = 0
    · -- edge frame with i = 0 (also covers a single-frame range)
      have hjqfs : j * fs = fs * (s / fs) := by
        have hjq : j = s / fs := by omega
        rw [hjq, hqfs]
      rw [if_pos (Or.inl hfirst), if_pos hfirst]
      have hbufnil : buf = [] := by
        rw [hbuf]
        exact sliceOf_eq_nil (by omega)
      rw [hbufnil, List.nil_append, List.length_nil, Nat.sub_zero]
      rw [hframe, sliceOf_sliceOf, sliceOf_length]
      rw [hidx]
      refine ih (j + 1) _ (by omega) (by omega) ?_
      congr 1 <;> omega
    · have hqlt : s / fs < j := by omega
      have hq1j : (s / fs + 1) * fs ≤ j * fs := Nat.mul_le_mul_right fs (by omega)
      have hq1fs : (s / fs + 1) * fs = s / fs * fs + fs := by ring
      rw [if_neg hfirst]
      have hX : min e (min (j * fs) input.length) = j * fs := by omega
      rw [hX] at hbuf
      by_cases hlast : j - s / fs = divCeil e fs + 1 - s / fs - 2
      · -- edge frame with i = n - 2 (the last frame of a multi-frame range)
        rw [if_pos (Or.inr hlast)]
        rw [hbuf, sliceOf_length, hframe, sliceOf_sliceOf, sliceOf_length]
        simp only [Nat.zero_add, Nat.add_zero]
        rw [sliceOf_append_sliceOf input]
        · rw [hidx]
          refine ih (j + 1) _ (by omega) (by omega) ?_
          congr 1 <;> omega
        · omega
        · omega
      · -- interior frame: decompressed straight into the output buffer
        rw [if_neg (by push_neg; exact ⟨hfirst, hlast⟩)]
        have hj2 : j + 2 ≤ divCeil e fs := by omega
        have hj1e : (j + 1) * fs ≤ (divCeil e fs - 1) * fs := Nat.mul_le_mul_right fs (by omega)
        have hj1n : (j + 1) * fs ≤ (nfOf fs input - 1) * fs := Nat.mul_le_mul_right fs (by omega)
        have hB : min ((j + 1) * fs) input.length = (j + 1) * fs := by omega
        rw [hbuf, hframe, hB]
        rw [sliceOf_append_sliceOf input]
        · rw [hidx]
          refine ih (j + 1) _ (by omega) (by omega) ?_
          congr 1 <;> omega
        · omega
        · omega

lemma read_into_inverted (D : List Nat → List Nat) (d : Decompressor) (buf : List Nat)
    {s e : Nat} (h : s > e) : d.read_into D buf s e = (none, buf) := by
  simp only [Decompressor.read_into]
  rw [if_pos h]

lemma read_into_table_oob (D : List Nat → List Nat) (d : Decompressor) (buf : List Nat)
    {s e : Nat} (hse : ¬s > e) (h : d.frame_offsets.length ≤ divCeil e d.header.frame_size) :
    d.read_into D buf s e = (none, buf) := by
  simp only [Decompressor.read_into]
  rw [if_neg hse]
  have hnone : getRangeIncl d.frame_offsets (s / d.header.frame_size)
      (divCeil e d.header.frame_size) = none := by
    unfold getRangeIncl
    rw [if_neg (by omega)]
  rw [hnone]

/-- Success of `read_into` on a compress-produced view, for any range with
`start ≤ end`, `start ≤ input_len` and `end` within the frame span: the
result is `input[start .. min end input_len]`. -/
lemma read_into_compress (C D : List Nat → List Nat) (input : List Nat) (fs : Nat)
    (hfs : 0 < fs) (hCD : ∀ b, D (C b) = b)
    (hsum : offAt C input fs (nfOf fs input) < 4294967296)
    (s e : Nat) (hse : s ≤ e) (hsl : s ≤ input.length) (he : e ≤ nfOf fs input * fs)
    (buf : List Nat) :
    Decompressor.read_into D
      { header := { frame_size := fs, input_len := input.length }
        frame_offsets :=
          (List.range (nfOf fs input + 1)).map fun i => offAt C input fs i % 4294967296
        zstd_buf := blobOf C input fs (nfOf fs input) } buf s e =
      (some (sliceOf input s (min e input.length)), sliceOf input s (min e input.length)) := by
  rw [offsets_no_trunc C input fs hsum]
  have hnf : divCeil e fs ≤ nfOf fs input := (divCeil_le_iff hfs e _).2 he
  have hqe : s / fs ≤ divCeil e fs :=
    le_trans (Nat.div_le_div_right hse) (div_le_divCeil e fs)
  simp only [Decompressor.read_into]
  rw [if_neg (by omega)]
  have hoffs : getRangeIncl ((List.range (nfOf fs input + 1)).map (offAt C input fs))
      (s / fs) (divCeil e fs) =
      some ((List.range (divCeil e fs + 1 - s / fs)).map
        fun t => offAt C input fs (s / fs + t)) := by
    unfold getRangeIncl
    rw [if_pos ⟨by omega, by rw [List.length_map, List.length_range]; omega⟩]
    exact congrArg some (sliceOf_map_range (offAt C input fs) (nfOf fs input + 1) (s / fs)
      (divCeil e fs + 1) (by omega) (by omega))
  have hm : divCeil e fs + 1 - s / fs = (divCeil e fs - s / fs) + 1 := by omega
  rw [hoffs, hm]
  show readLoop D (blobOf C input fs (nfOf fs input)) fs s (e - s)
      ((List.range (divCeil e fs - s / fs + 1)).map fun t => offAt C input fs (s / fs + t)).length
      (windows2 ((List.range (divCeil e fs - s / fs + 1)).map
        fun t => offAt C input fs (s / fs + t)))
      0 [] =
    (some (sliceOf input s (min e input.length)), sliceOf input s (min e input.length))
  rw [windows2_map_range (offAt C input fs) (divCeil e fs - s / fs) (s / fs),
    List.length_map, List.length_range]
  have hmain := readLoop_main C D input fs hfs hCD s e hse hsl he
    (divCeil e fs - s / fs) (s / fs) []
    (by omega) le_rfl
    (by
      refine (sliceOf_eq_nil ?_).symm
      have h1 : s / fs * fs ≤ s := Nat.div_mul_le_self s fs
      omega)
  rw [Nat.sub_self] at hmain
  rw [← hm]
  exact hmain

/-! ## Claim theorems -/

/-- C1: for every accepted input, every accepted frame size, and every
sub-range `s..e` with `s ≤ e ≤ input.len()`, opening the artifact produced
by `Compressor::compress` and reading the range back via `get`/`get_into`
returns exactly `input[s..e]` (assuming the external codec's decompress
inverts its compress, and that the compressed total fits in a `u32`). -/
theorem claim_C1_round_trip (C D : List Nat → List Nat) (fs : Nat) (input : List Nat)
    (hCD : ∀ b, D (C b) = b)
    (hfs : Compressor.frameSizeOk fs = true)
    (hlen : Compressor.compressLenOk input = true)
    (hsum : offAt C input fs (nfOf fs input) < 4294967296)
    (s e : Nat) (hse : s ≤ e) (he : e ≤ input.length) :
    ∃ d, Decompressor.new (Compressor.compress C fs input) = some d ∧
      (∀ buf, d.get_into D buf (Bound.included s) (Bound.excluded e) =
        (some (sliceOf input s e), sliceOf input s e)) ∧
      d.get D (Bound.included s) (Bound.excluded e) = some (sliceOf input s e) := by
  have hu : u32MAX = 4294967295 := rfl
  have hfs' : 1 ≤ fs ∧ fs < u32MAX := by
    simpa [Compressor.frameSizeOk] using hfs
  have hlen' : input.length < u32MAX := by
    simpa [Compressor.compressLenOk] using hlen
  have hfs0 : 0 < fs := by omega
  have hnffs : input.length ≤ nfOf fs input * fs := le_divCeil_mul hfs0 input.length
  have hg : ∀ buf : List Nat,
      Decompressor.read_into D
        { header := { frame_size := fs, input_len := input.length }
          frame_offsets :=
            (List.range (nfOf fs input + 1)).map fun i => offAt C input fs i % 4294967296
          zstd_buf := blobOf C input fs (nfOf fs input) } buf s e =
        (some (sliceOf input s e), sliceOf input s e) := by
    intro buf
    have h := read_into_compress C D input fs hfs0 hCD hsum s e hse (le_trans hse he)
      (by omega) buf
    rwa [min_eq_left he] at h
  refine ⟨_, new_compress C fs input (by omega) (by omega), fun buf => hg buf, ?_⟩
  exact congrArg Prod.fst (hg [])

/-- C2 (corrected claim): an inverted range (`start > end`) fails with the
"unexpected end of data" error and leaves the caller's buffer untouched;
an empty range `start = end ≤ input_len`, however, succeeds and returns
zero bytes — it is not rejected. -/
theorem claim_C2_amended (C D : List Nat → List Nat) (fs : Nat) (input : List Nat)
    (hCD : ∀ b, D (C b) = b)
    (hfs : Compressor.frameSizeOk fs = true)
    (hlen : Compressor.compressLenOk input = true)
    (hsum : offAt C input fs (nfOf fs input) < 4294967296) :
    ∃ d, Decompressor.new (Compressor.compress C fs input) = some d ∧
      (∀ buf s e, s > e → d.read_into D buf s e = (none, buf)) ∧
      (∀ buf s, s ≤ input.length → d.read_into D buf s s = (some [], [])) := by
  have hfs' : 1 ≤ fs ∧ fs < u32MAX := by
    simpa [Compressor.frameSizeOk] using hfs
  have hlen' : input.length < u32MAX := by
    simpa [Compressor.compressLenOk] using hlen
  have hu : u32MAX = 4294967295 := rfl
  have hfs0 : 0 < fs := by omega
  have hnffs : input.length ≤ nfOf fs input * fs := le_divCeil_mul hfs0 input.length
  refine ⟨_, new_compress C fs input (by omega) (by omega), ?_, ?_⟩
  · intro buf s e h
    exact read_into_inverted D _ buf h
  · intro buf s hs
    have h := read_into_compress C D input fs hfs0 hCD hsum s s le_rfl hs (by omega) buf
    have hnil : sliceOf input s (min s input.length) = [] := sliceOf_eq_nil (by omega)
    rwa [hnil] at h

/-- C2 counterexample: on the artifact for `0..=31` with frame size 16, the
empty range `5..5` succeeds with `Ok` and zero bytes, where the claim says
every empty range must fail with an "unexpected end of data" error. (The
repository's own test `test_compress` likewise asserts that `..0` succeeds.) -/
theorem claim_C2_counterexample :
    (Decompressor.new (Compressor.compress id 16 (List.range 32))).map
      (fun d => (d.get_into id [7] (Bound.included 5) (Bound.excluded 5)).1) =
      some (some []) := by decide

/-- C3 (corrected claim): with `start ≤ end`, `get_into` fails with the
"unexpected end of data" error iff `end` lies beyond the frame span
`num_frames * frame_size` (equivalently `ceil(end/frame_size) > num_frames`),
and such failures leave the caller's buffer untouched; but for
`input_len < end ≤ num_frames * frame_size` the call does NOT fail: it
succeeds and returns the truncated slice `input[start..input_len]`. -/
theorem claim_C3_amended (C D : List Nat → List Nat) (fs : Nat) (input : List Nat)
    (hCD : ∀ b, D (C b) = b)
    (hfs : Compressor.frameSizeOk fs = true)
    (hlen : Compressor.compressLenOk input = true)
    (hsum : offAt C input fs (nfOf fs input) < 4294967296) :
    ∃ d, Decompressor.new (Compressor.compress C fs input) = some d ∧
      (∀ buf s e, s ≤ e → nfOf fs input * fs < e → d.read_into D buf s e = (none, buf)) ∧
      (∀ buf s e, s ≤ input.length → input.length < e → e ≤ nfOf fs input * fs →
        d.read_into D buf s e =
          (some (sliceOf input s input.length), sliceOf input s input.length)) := by
  have hfs' : 1 ≤ fs ∧ fs < u32MAX := by
    simpa [Compressor.frameSizeOk] using hfs
  have hlen' : input.length < u32MAX := by
    simpa [Compressor.compressLenOk] using hlen
  have hu : u32MAX = 4294967295 := rfl
  have hfs0 : 0 < fs := by omega
  refine ⟨_, new_compress C fs input (by omega) (by omega), ?_, ?_⟩
  · intro buf s e hse hbig
    refine read_into_table_oob D _ buf (by omega) ?_
    show ((List.range (nfOf fs input + 1)).map
        fun i => offAt C input fs i % 4294967296).length ≤ divCeil e fs
    rw [List.length_map, List.length_range]
    by_contra hc
    have h1 : divCeil e fs ≤ nfOf fs input := by omega
    have h2 := (divCeil_le_iff hfs0 e (nfOf fs input)).1 h1
    omega
  · intro buf s e hsl hle hspan
    have h := read_into_compress C D input fs hfs0 hCD hsum s e (by omega) hsl hspan buf
    rwa [min_eq_right (by omega)] at h

/-- C3 counterexample: for a 30-byte input with frame size 16 (so
`num_frames = 2`), the range `0..31` has `end = 31 > input_len = 30`, yet
`get_into` succeeds and returns the 30 available bytes instead of failing
with an "unexpected end of data" error. -/
theorem claim_C3_counterexample :
    (Decompressor.new (Compressor.compress id 16 (List.range 30))).map
      (fun d => (d.get_into id [] (Bound.included 0) (Bound.excluded 31)).1) =
      some (some (List.range 30)) := by decide

/-- C4 (corrected claim): the stored offset table consists of
`num_frames + 1` words — a stored zero anchor (never written after the
buffer is zero-initialized, since the loop writes slots `i + 3`) followed
by the `num_frames` cumulative offsets — occupying bytes
`[8, 8 + 4*(num_frames+1))`; the compressed frames follow. -/
theorem claim_C4_amended (C : List Nat → List Nat) (fs : Nat) (input : List Nat) :
    Compressor.compress C fs input =
      u32Bytes (fs % 4294967296) ++ u32Bytes (input.length % 4294967296) ++
        wordsJoin ((List.range (nfOf fs input + 1)).map
          fun i => offAt C input fs i % 4294967296) ++
        blobOf C input fs (nfOf fs input) := by
  rw [compress_eq]
  have h1 : tableWords C fs input =
      [fs % 4294967296] ++ [input.length % 4294967296] ++
        ((List.range (nfOf fs input + 1)).map fun i => offAt C input fs i % 4294967296) := rfl
  rw [h1, wordsJoin_append, wordsJoin_append]
  have h2 : wordsJoin [fs % 4294967296] = u32Bytes (fs % 4294967296) := by
    rw [wordsJoin_cons, wordsJoin_nil, List.append_nil]
  have h3 : wordsJoin [input.length % 4294967296] = u32Bytes (input.length % 4294967296) := by
    rw [wordsJoin_cons, wordsJoin_nil, List.append_nil]
  rw [h2, h3]

/-- C4 counterexample: for input `0..=31` and frame size 16 (2 frames, and
the identity codec so each frame compresses to its own 16 bytes), the claim
predicts the first cumulative offset (16) at bytes `[8,12)` and a 48-byte
artifact (8 header + 2*4 table + 32 blob); in fact bytes `[8,12)` hold the
stored zero anchor, the cumulative offsets 16 and 32 sit at `[12,20)`, and
the artifact is 52 bytes long. -/
theorem claim_C4_counterexample :
    readU32 ((Compressor.compress id 16 (List.range 32)).drop 8) = 0 ∧
    readU32 ((Compressor.compress id 16 (List.range 32)).drop 12) = 16 ∧
    readU32 ((Compressor.compress id 16 (List.range 32)).drop 16) = 32 ∧
    (Compressor.compress id 16 (List.range 32)).length = 52 := by decide

/-- C5: on a valid range the loop's one-past-the-last frame index is
`ceil(end/frame_size)` and `read_into` iterates over (and decompresses)
exactly `ceil(end/frame_size) - start/frame_size` offset windows; hence a
range matching one frame's bounds touches exactly one frame, a range
spanning two adjacent frames touches two, and a range ending on a frame
boundary `i * frame_size` touches only frames below `i`, never frame `i`
itself. -/
theorem claim_C5_boundary (d : Decompressor) (s e : Nat)
    (hfs : 0 < d.header.frame_size) (hse : s ≤ e)
    (hlt : divCeil e d.header.frame_size < d.frame_offsets.length) :
    framesTouched d s e =
      some (divCeil e d.header.frame_size - s / d.header.frame_size) ∧
    (∀ i, s = i * d.header.frame_size → i * d.header.frame_size < e →
      e ≤ (i + 1) * d.header.frame_size → framesTouched d s e = some 1) ∧
    (∀ i, s = i * d.header.frame_size → (i + 1) * d.header.frame_size < e →
      e ≤ (i + 2) * d.header.frame_size → framesTouched d s e = some 2) ∧
    (∀ i, e = i * d.header.frame_size →
      framesTouched d s e = some (i - s / d.header.frame_size)) := by
  have hqe : s / d.header.frame_size ≤ divCeil e d.header.frame_size :=
    le_trans (Nat.div_le_div_right hse) (div_le_divCeil e d.header.frame_size)
  have hmain : framesTouched d s e =
      some (divCeil e d.header.frame_size - s / d.header.frame_size) := by
    unfold framesTouched
    rw [if_neg (by omega)]
    unfold getRangeIncl
    rw [if_pos ⟨by omega, hlt⟩]
    refine congrArg some ?_
    rw [windows2_length, sliceOf_length]
    omega
  refine ⟨hmain, ?_, ?_, ?_⟩
  · intro i hs h1 h2
    rw [hmain]
    have hub := (divCeil_le_iff hfs e (i + 1)).2 h2
    have hlb : ¬divCeil e d.header.frame_size ≤ i := fun hc =>
      absurd ((divCeil_le_iff hfs e i).1 hc) (by omega)
    have hdiv : s / d.header.frame_size = i := by
      rw [hs, Nat.mul_div_cancel i hfs]
    rw [hdiv]
    refine congrArg some ?_
    omega
  · intro i hs h1 h2
    rw [hmain]
    have hub := (divCeil_le_iff hfs e (i + 2)).2 h2
    have hlb : ¬divCeil e d.header.frame_size ≤ i + 1 := fun hc =>
      absurd ((divCeil_le_iff hfs e (i + 1)).1 hc) (by omega)
    have hdiv : s / d.header.frame_size = i := by
      rw [hs, Nat.mul_div_cancel i hfs]
    rw [hdiv]
    refine congrArg some ?_
    omega
  · intro i hee
    rw [hmain, hee, divCeil_mul hfs]

/-- C6 (corrected claim): the builder's asserts accept exactly
`1 ≤ frame_size < u32::MAX = 2^32 - 1` (not `< 2^32`), and `compress`
accepts exactly `input.len() < 2^32 - 1` (not `< 2^32`); outside these
ranges the `assert!` fails immediately as a contract violation. -/
theorem claim_C6_amended :
    (∀ n : Nat, Compressor.frameSizeOk n = true ↔ 1 ≤ n ∧ n < 4294967296 - 1) ∧
    (∀ input : List Nat,
      Compressor.compressLenOk input = true ↔ input.length < 4294967296 - 1) := by
  constructor
  · intro n
    simp [Compressor.frameSizeOk, u32MAX]
  · intro input
    simp [Compressor.compressLenOk, u32MAX]

/-- C6 counterexample: `frame_size = 2^32 - 1` lies inside the claimed
accepted range `[1, 2^32)` but is rejected by the code's
`assert!(frame_size < u32::MAX)`. -/
theorem claim_C6_counterexample :
    (1 : Nat) ≤ 4294967295 ∧ (4294967295 : Nat) < 4294967296 ∧
    Compressor.frameSizeOk 4294967295 = false := by decide

/-- C7: `Decompressor::new` returns `None` (not an error) whenever the byte
slice is shorter than the 8-byte header, or (for a header with a nonzero
frame size, so that the table size it implies is well defined) shorter than
header plus the `num_frames + 1`-word offset table. -/
theorem claim_C7_open_short (bytes : List Nat) :
    (bytes.length < 8 → Decompressor.new bytes = none) ∧
    (readU32 bytes ≠ 0 →
      bytes.length < 8 + 4 * (divCeil (readU32 (bytes.drop 4)) (readU32 bytes) + 1) →
      Decompressor.new bytes = none) := by
  constructor
  · intro h
    simp only [Decompressor.new]
    rw [if_pos h]
  · intro hfs h
    simp only [Decompressor.new]
    by_cases h8 : bytes.length < 8
    · rw [if_pos h8]
    · rw [if_neg h8]
      rw [if_pos (by rw [List.length_drop]; omega)]

/-- C8: `Compressor::compress` is deterministic — with the codec fixed (the
abstract codec is a function, which encodes the assumption that the external
compressor is deterministic at a fixed level) and the same `frame_size`,
equal inputs produce byte-identical artifacts. -/
theorem claim_C8_deterministic (C : List Nat → List Nat) (fs : Nat)
    (inputA inputB : List Nat) (h : inputA = inputB) :
    Compressor.compress C fs inputA = Compressor.compress C fs inputB := by
  rw [h]

/-- C9: opening an artifact straight out of `compress` always succeeds, and
the parsed view holds exactly the configured frame size and input length,
with the offset slice being a leading zero anchor followed by the cumulative
compressed size after each frame. -/
theorem claim_C9_parse_roundtrip (C : List Nat → List Nat) (fs : Nat) (input : List Nat)
    (hfs : Compressor.frameSizeOk fs = true)
    (hlen : Compressor.compressLenOk input = true)
    (hsum : offAt C input fs (nfOf fs input) < 4294967296) :
    Decompressor.new (Compressor.compress C fs input) =
      some { header := { frame_size := fs, input_len := input.length }
             frame_offsets :=
               0 :: (List.range (nfOf fs input)).map fun i => offAt C input fs (i + 1)
             zstd_buf := blobOf C input fs (nfOf fs input) } := by
  have hfs' : 1 ≤ fs ∧ fs < u32MAX := by
    simpa [Compressor.frameSizeOk] using hfs
  have hlen' : input.length < u32MAX := by
    simpa [Compressor.compressLenOk] using hlen
  have hu : u32MAX = 4294967295 := rfl
  rw [new_compress C fs input (by omega) (by omega), offsets_no_trunc C input fs hsum]
  rw [map_range_succ_shift (offAt C input fs) (nfOf fs input)]
  rw [offAt_zero]

/-- C10: `make_range` (and hence `get`/`get_into`) resolves an excluded
start bound exactly like an included one: the start becomes `a` itself (so
byte `a` is part of the result), not `a + 1`. -/
theorem claim_C10_excluded_start (a : Nat) (endB : Bound) (len : Nat)
    (D : List Nat → List Nat) (d : Decompressor) (buf : List Nat) :
    make_range (Bound.excluded a) endB len = make_range (Bound.included a) endB len ∧
    (make_range (Bound.excluded a) endB len).1 = a ∧
    d.get_into D buf (Bound.excluded a) endB = d.get_into D buf (Bound.included a) endB ∧
    d.get D (Bound.excluded a) endB = d.get D (Bound.included a) endB :=
  ⟨rfl, rfl, rfl, rfl⟩

/-! ## Witnesses -/

/-- C1 witness: concrete round trip for `input = 0..=31`, `frame_size = 16`,
range `3..20`, with the identity codec. -/
theorem claim_C1_round_trip_witness :
    (∀ b : List Nat, id (id b) = b) ∧
    Compressor.frameSizeOk 16 = true ∧
    Compressor.compressLenOk (List.range 32) = true ∧
    offAt id (List.range 32) 16 (nfOf 16 (List.range 32)) < 4294967296 ∧
    (3 : Nat) ≤ 20 ∧ (20 : Nat) ≤ (List.range 32).length ∧
    (∃ d, Decompressor.new (Compressor.compress id 16 (List.range 32)) = some d ∧
      (∀ buf, d.get_into id buf (Bound.included 3) (Bound.excluded 20) =
        (some (sliceOf (List.range 32) 3 20), sliceOf (List.range 32) 3 20)) ∧
      d.get id (Bound.included 3) (Bound.excluded 20) = some (sliceOf (List.range 32) 3 20)) :=
  ⟨fun _ => rfl, by decide, by decide, by decide, by decide, by decide,
    claim_C1_round_trip id id 16 (List.range 32) (fun _ => rfl) (by decide) (by decide)
      (by decide) 3 20 (by decide) (by decide)⟩

/-- C2 witness: the amended behavior on the concrete 32-byte artifact. -/
theorem claim_C2_amended_witness :
    (∀ b : List Nat, id (id b) = b) ∧
    Compressor.frameSizeOk 16 = true ∧
    Compressor.compressLenOk (List.range 32) = true ∧
    offAt id (List.range 32) 16 (nfOf 16 (List.range 32)) < 4294967296 ∧
    (∃ d, Decompressor.new (Compressor.compress id 16 (List.range 32)) = some d ∧
      (∀ buf s e, s > e → d.read_into id buf s e = (none, buf)) ∧
      (∀ buf s, s ≤ (List.range 32).length → d.read_into id buf s s = (some [], []))) :=
  ⟨fun _ => rfl, by decide, by decide, by decide,
    claim_C2_amended id id 16 (List.range 32) (fun _ => rfl) (by decide) (by decide)
      (by decide)⟩

/-- C3 witness: the amended behavior on the concrete 30-byte artifact. -/
theorem claim_C3_amended_witness :
    (∀ b : List Nat, id (id b) = b) ∧
    Compressor.frameSizeOk 16 = true ∧
    Compressor.compressLenOk (List.range 30) = true ∧
    offAt id (List.range 30) 16 (nfOf 16 (List.range 30)) < 4294967296 ∧
    (∃ d, Decompressor.new (Compressor.compress id 16 (List.range 30)) = some d ∧
      (∀ buf s e, s ≤ e → nfOf 16 (List.range 30) * 16 < e →
        d.read_into id buf s e = (none, buf)) ∧
      (∀ buf s e, s ≤ (List.range 30).length → (List.range 30).length < e →
        e ≤ nfOf 16 (List.range 30) * 16 →
        d.read_into id buf s e =
          (some (sliceOf (List.range 30) s (List.range 30).length),
            sliceOf (List.range 30) s (List.range 30).length))) :=
  ⟨fun _ => rfl, by decide, by decide, by decide,
    claim_C3_amended id id 16 (List.range 30) (fun _ => rfl) (by decide) (by decide)
      (by decide)⟩

/-- C5 witness: on a parsed view with `frame_size = 16`, `input_len = 32`
and three table words, the range `16..32` — exactly frame 1's bounds —
touches exactly one frame. -/
theorem claim_C5_boundary_witness :
    (0 : Nat) < 16 ∧ (16 : Nat) ≤ 32 ∧ divCeil 32 16 < 3 ∧
    framesTouched
      { header := { frame_size := 16, input_len := 32 }
        frame_offsets := [0, 16, 32], zstd_buf := List.range 32 } 16 32 = some 1 :=
  ⟨by decide, by decide, by decide,
    (claim_C5_boundary
      { header := { frame_size := 16, input_len := 32 }
        frame_offsets := [0, 16, 32], zstd_buf := List.range 32 } 16 32
      (by decide) (by decide) (by decide)).2.1 1 (by decide) (by decide) (by decide)⟩

/-- C7 witness: a 4-byte buffer is shorter than the header and fails to
open; a 12-byte buffer whose header implies a 3-word table (frame size 16,
input length 17) is shorter than header + table and fails to open. -/
theorem claim_C7_open_short_witness :
    ([1, 0, 0, 0] : List Nat).length < 8 ∧
    Decompressor.new [1, 0, 0, 0] = none ∧
    readU32 [16, 0, 0, 0, 17, 0, 0, 0, 0, 0, 0, 0] ≠ 0 ∧
    ([16, 0, 0, 0, 17, 0, 0, 0, 0, 0, 0, 0] : List Nat).length <
      8 + 4 * (divCeil (readU32 (([16, 0, 0, 0, 17, 0, 0, 0, 0, 0, 0, 0] : List Nat).drop 4))
        (readU32 [16, 0, 0, 0, 17, 0, 0, 0, 0, 0, 0, 0]) + 1) ∧
    Decompressor.new [16, 0, 0, 0, 17, 0, 0, 0, 0, 0, 0, 0] = none :=
  ⟨by decide, (claim_C7_open_short [1, 0, 0, 0]).1 (by decide),
    by decide, by decide,
    (claim_C7_open_short [16, 0, 0, 0, 17, 0, 0, 0, 0, 0, 0, 0]).2 (by decide) (by decide)⟩

/-- C8 witness: two runs on the same 32-byte input agree. -/
theorem claim_C8_deterministic_witness :
    List.range 32 = List.range 32 ∧
    Compressor.compress id 16 (List.range 32) = Compressor.compress id 16 (List.range 32) :=
  ⟨rfl, claim_C8_deterministic id 16 (List.range 32) (List.range 32) rfl⟩

/-- C9 witness: parsing the concrete artifact for `0..=31`, `frame_size = 16`
with the identity codec recovers header `(16, 32)`, offsets `[0, 16, 32]`
(zero anchor first) and the 32-byte blob. -/
theorem claim_C9_parse_roundtrip_witness :
    Compressor.frameSizeOk 16 = true ∧
    Compressor.compressLenOk (List.range 32) = true ∧
    offAt id (List.range 32) 16 (nfOf 16 (List.range 32)) < 4294967296 ∧
    Decompressor.new (Compressor.compress id 16 (List.range 32)) =
      some { header := { frame_size := 16, input_len := (List.range 32).length }
             frame_offsets :=
               0 :: (List.range (nfOf 16 (List.range 32))).map
                 fun i => offAt id (List.range 32) 16 (i + 1)
             zstd_buf := blobOf id (List.range 32) 16 (nfOf 16 (List.range 32)) } :=
  ⟨by decide, by decide, by decide,
    claim_C9_parse_roundtrip id 16 (List.range 32) (by decide) (by decide) (by decide)⟩
